import Mathlib

/-!
# Verification of the dynasm-jit-demo template compiler

A shallow embedding of the stack-machine bytecode JIT in `src/demo.c`.

The embedding has three layers, each translated from the C source:

1. `decodeInstr` / `scanFrom` / `compile` — the single forward scan of the
   `compile` function: one pc label per byte offset, operands read as 4-byte
   little-endian two's-complement signed integers, JGT targets resolved to
   the absolute byte offset at emission time.
2. `nStep` / `nRun` — the semantics of the emitted x86-64 templates, one
   abstract instruction per bytecode instruction.  The runtime stack holds
   64-bit machine words; CONSTANT is a `push imm32` (sign-extends),
   INPUT is a `mov eax, dword [rbx]` followed by `push rax` (zero-extends),
   ADD/CMP and the JGT test are full 64-bit operations, PRINT pops a word
   and prints its signed 64-bit value.
3. `refStep` / `refRun` — the reference interpreter of the instruction-set
   table: an implicit stack of signed 32-bit integers.

`scanPos` models the raw scanning loop itself, recording instruction
boundaries and every operand byte read, including reads past the end of the
program and the failure to advance on an undefined opcode.
`linkEncodeLifecycle` models the executable-memory lifecycle of
`our_dasm_link_and_encode`.
-/

namespace DynasmDemo

/-- Two to the 64, the modulus of machine words on the runtime stack. -/
def M64 : Nat := 18446744073709551616

/-- Two to the 63, the signed / unsigned boundary of a 64-bit word. -/
def M63 : Nat := 9223372036854775808

/-- Two to the 32, the modulus of 32-bit operands and inputs. -/
def M32 : Nat := 4294967296

/-- Two to the 31, the signed / unsigned boundary of a 32-bit value. -/
def M31 : Nat := 2147483648

/-- The abstract native-code template emitted for one bytecode instruction.
One constructor per `case` of the `switch` in `compile` (demo.c lines
785-1064).  `tJgt` stores the absolute byte offset `instrptr - program +
OPERAND()` computed at emission time (demo.c line 1040). -/
inductive Template where
  | tConst (c : Int)
  | tAdd
  | tPrint
  | tInput
  | tDiscard
  | tGet (k : Int)
  | tSet (k : Int)
  | tCmp
  | tJgt (target : Int)
  | tHalt
deriving DecidableEq, Repr

/-- Read one byte of the program; bytes are `u8`, hence the reduction
mod 256. -/
def byteAt (prog : List Nat) (p : Nat) : Option Nat :=
  (prog.get? p).map (· % 256)

/-- The raw little-endian 4-byte operand read by the `OPERAND()` helper
(demo.c lines 718-722), as an unsigned 32-bit number. -/
def rawOperand (prog : List Nat) (p : Nat) : Option Nat := do
  let b1 ← byteAt prog (p+1)
  let b2 ← byteAt prog (p+2)
  let b3 ← byteAt prog (p+3)
  let b4 ← byteAt prog (p+4)
  pure (b1 + 256 * b2 + 65536 * b3 + 16777216 * b4)

/-- Reinterpret an unsigned 32-bit number as a two's-complement signed
integer, the `(i32)` cast in `OPERAND()`. -/
def toI32 (u : Nat) : Int :=
  if u % M32 < M31 then ((u % M32 : Nat) : Int)
  else ((u % M32 : Nat) : Int) - (M32 : Int)

/-- The signed operand of the instruction starting at byte offset `p`. -/
def operandAt (prog : List Nat) (p : Nat) : Option Int :=
  (rawOperand prog p).map toI32

/-- Decode the instruction at byte offset `p` to its emitted template and
its length in bytes (1, or 5 when a 4-byte operand follows the opcode). -/
def decodeInstr (prog : List Nat) (p : Nat) : Option (Template × Nat) :=
  match byteAt prog p with
  | none => none
  | some 0 => (operandAt prog p).map fun c => (.tConst c, 5)
  | some 1 => some (.tAdd, 1)
  | some 2 => some (.tPrint, 1)
  | some 3 => some (.tInput, 1)
  | some 4 => some (.tDiscard, 1)
  | some 5 => (operandAt prog p).map fun k => (.tGet k, 5)
  | some 6 => (operandAt prog p).map fun k => (.tSet k, 5)
  | some 7 => some (.tCmp, 1)
  | some 8 => (operandAt prog p).map fun d => (.tJgt ((p : Int) + d), 5)
  | some 9 => some (.tHalt, 1)
  | some _ => none

/-- The compile loop of demo.c lines 724-1065: starting at byte offset `p`,
walk the program, and for each instruction record the pc label defined for
its byte offset together with the template emitted for it.  The fuel
argument bounds the number of loop iterations; each decoded instruction
advances the offset by at least one, so fuel `prog.length` always
suffices for well-formed programs. -/
def scanFrom (prog : List Nat) : Nat → Nat → Option (List (Nat × Template))
  | 0, p => if prog.length ≤ p then some [] else none
  | fuel+1, p =>
    if prog.length ≤ p then some []
    else
      match decodeInstr prog p with
      | some (t, len) => (scanFrom prog fuel (p + len)).map ((p, t) :: ·)
      | none => none

/-- The labels defined during compilation, in emission order. -/
def codeLabels (code : List (Nat × Template)) : List Nat :=
  code.map Prod.fst

/-- The link-time check performed by `dasm_link` inside
`our_dasm_link_and_encode`: every pc label referenced by a jump must have
been defined somewhere in the emitted code, or linking fails. -/
def jgtTargetsOk (code : List (Nat × Template)) : Bool :=
  code.all fun e =>
    match e.2 with
    | .tJgt L => (codeLabels code).any fun l => (l : Int) == L
    | _ => true

/-- The whole of `compile` (demo.c lines 439-1080): scan and emit, then
link.  Returns the emitted code when the scan completes and every jump
target resolves to a defined label; `none` models the paths on which the
real compiler never returns a function (the scan looping forever on an
undefined opcode, a truncated operand read, or the `assert` on
`dasm_link` aborting). -/
def compile (prog : List Nat) : Option (List (Nat × Template)) :=
  match scanFrom prog prog.length 0 with
  | some code => if jgtTargetsOk code then some code else none
  | none => none

/-! ## The native machine -/

/-- State of the generated native code: `pc` indexes the emitted template
list, the stack holds 64-bit machine words, `inp` is the remaining input
stream (the rbx cursor), `out` the values printed so far. -/
structure NState where
  pc : Nat
  stack : List Nat
  inp : List Int
  out : List Int
  halted : Bool
deriving DecidableEq, Repr

/-- The signed 64-bit value of a machine word, the interpretation used by
the generated `cmp`/`test`/`jg` instructions and by `printf` with a signed
64-bit conversion. -/
def toS64 (w : Nat) : Int :=
  if w % M64 < M63 then ((w % M64 : Nat) : Int)
  else ((w % M64 : Nat) : Int) - (M64 : Int)

/-- The machine word obtained by sign-extending a signed value to 64 bits,
what `push imm32` does to the CONSTANT operand. -/
def sextW (v : Int) : Nat := (v % (M64 : Int)).toNat

/-- The machine word obtained by zero-extending the low 32 bits of a value,
what `mov eax, dword [rbx]` followed by `push rax` does to an input. -/
def zextW (v : Int) : Nat := (v % (M32 : Int)).toNat

/-- The word pushed by the CMP template: 1, minus one, or 0 according to
the signed 64-bit comparison of the two popped words (`a` below `b`). -/
def cmpWord (wa wb : Nat) : Nat :=
  if toS64 wb < toS64 wa then 1
  else if toS64 wa < toS64 wb then M64 - 1
  else 0

/-- Resolve a pc label to the position of the template it was defined at:
the linking pass of the code-emission engine. -/
def linkLookup : List (Nat × Template) → Int → Option Nat
  | [], _ => none
  | e :: rest, L =>
    if (e.1 : Int) = L then some 0 else (linkLookup rest L).map (· + 1)

/-- Effect of one emitted template on the native machine state; the pc
advance, the stack effect and the signed-64 tests of the x86-64 code.
`none` models the undefined behaviours the generated code does not check
(stack underflow, stack accesses outside the live values, input
exhaustion). -/
def nExec (code : List (Nat × Template)) (s : NState) : Template → Option NState
  | .tConst c => some { s with pc := s.pc + 1, stack := sextW c :: s.stack }
  | .tAdd =>
    match s.stack with
    | wb :: wa :: rest =>
      some { s with pc := s.pc + 1, stack := ((wa + wb) % M64) :: rest }
    | _ => none
  | .tPrint =>
    match s.stack with
    | w :: rest =>
      some { s with pc := s.pc + 1, stack := rest, out := s.out ++ [toS64 w] }
    | _ => none
  | .tInput =>
    match s.inp with
    | v :: vi =>
      some { s with pc := s.pc + 1, stack := zextW v :: s.stack, inp := vi }
    | _ => none
  | .tDiscard =>
    match s.stack with
    | _ :: rest => some { s with pc := s.pc + 1, stack := rest }
    | _ => none
  | .tGet k =>
    if 0 ≤ k then
      match s.stack.get? k.toNat with
      | some w => some { s with pc := s.pc + 1, stack := w :: s.stack }
      | none => none
    else none
  | .tSet k =>
    match s.stack with
    | w :: rest =>
      if 0 ≤ k ∧ k.toNat < rest.length then
        some { s with pc := s.pc + 1, stack := rest.set k.toNat w }
      else none
    | _ => none
  | .tCmp =>
    match s.stack with
    | wb :: wa :: rest =>
      some { s with pc := s.pc + 1, stack := cmpWord wa wb :: rest }
    | _ => none
  | .tJgt L =>
    match s.stack with
    | w :: rest =>
      match linkLookup code L with
      | some j =>
        some { s with pc := if 0 < toS64 w then j else s.pc + 1, stack := rest }
      | none => none
    | _ => none
  | .tHalt => some { s with pc := s.pc + 1, halted := true }

/-- One step of the generated native code: fetch the template at `pc` and
execute it. -/
def nStep (code : List (Nat × Template)) (s : NState) : Option NState :=
  if s.halted then none
  else
    match code.get? s.pc with
    | none => none
    | some e => nExec code s e.2

/-- Run the native code for at most `fuel` steps; `some` exactly when the
code reaches its HALT epilogue within the fuel. -/
def nRun (code : List (Nat × Template)) : Nat → NState → Option NState
  | 0, s => if s.halted then some s else none
  | fuel+1, s =>
    if s.halted then some s
    else
      match nStep code s with
      | some s' => nRun code fuel s'
      | none => none

/-- The entry state of the generated function: empty runtime stack, the
input cursor at the start of the caller's input array. -/
def initN (inp : List Int) : NState :=
  { pc := 0, stack := [], inp := inp, out := [], halted := false }

/-- Compile a program and run the resulting native function on an input
stream, observing the sequence of printed values. -/
def runProg (prog : List Nat) (inp : List Int) (fuel : Nat) : Option (List Int) :=
  (compile prog).bind fun code => (nRun code fuel (initN inp)).map NState.out

/-! ## The reference interpreter -/

/-- State of the reference interpreter: `ip` is a byte offset into the
bytecode, the stack holds signed 32-bit integers. -/
structure RState where
  ip : Nat
  stack : List Int
  inp : List Int
  out : List Int
  halted : Bool
deriving DecidableEq, Repr

/-- Reduce an integer into the signed 32-bit range, two's complement. -/
def wrap32 (x : Int) : Int := (x + (M31 : Int)) % (M32 : Int) - (M31 : Int)

/-- The value pushed by CMP in the reference semantics. -/
def cmpVal (a b : Int) : Int := if b < a then 1 else if a < b then -1 else 0

/-- The listed stack effect of one instruction of the instruction-set
table on signed 32-bit integers; `len` is the instruction length used to
advance the instruction pointer. -/
def refExec (prog : List Nat) (s : RState) (len : Nat) : Template → Option RState
  | .tConst c => some { s with ip := s.ip + len, stack := c :: s.stack }
  | .tAdd =>
    match s.stack with
    | b :: a :: rest =>
      some { s with ip := s.ip + len, stack := wrap32 (a + b) :: rest }
    | _ => none
  | .tPrint =>
    match s.stack with
    | a :: rest =>
      some { s with ip := s.ip + len, stack := rest, out := s.out ++ [a] }
    | _ => none
  | .tInput =>
    match s.inp with
    | v :: vi =>
      some { s with ip := s.ip + len, stack := wrap32 v :: s.stack, inp := vi }
    | _ => none
  | .tDiscard =>
    match s.stack with
    | _ :: rest => some { s with ip := s.ip + len, stack := rest }
    | _ => none
  | .tGet k =>
    if 0 ≤ k then
      match s.stack.get? k.toNat with
      | some a => some { s with ip := s.ip + len, stack := a :: s.stack }
      | none => none
    else none
  | .tSet k =>
    match s.stack with
    | a :: rest =>
      if 0 ≤ k ∧ k.toNat < rest.length then
        some { s with ip := s.ip + len, stack := rest.set k.toNat a }
      else none
    | _ => none
  | .tCmp =>
    match s.stack with
    | b :: a :: rest =>
      some { s with ip := s.ip + len, stack := cmpVal a b :: rest }
    | _ => none
  | .tJgt L =>
    match s.stack with
    | a :: rest =>
      if 0 ≤ L ∧ L < (prog.length : Int) then
        some { s with ip := if 0 < a then L.toNat else s.ip + len, stack := rest }
      else none
    | _ => none
  | .tHalt => some { s with ip := s.ip + len, halted := true }

/-- One step of the reference interpreter of the instruction-set table:
decode the instruction at `ip` and apply its listed stack effect. -/
def refStep (prog : List Nat) (s : RState) : Option RState :=
  if s.halted then none
  else
    match decodeInstr prog s.ip with
    | none => none
    | some (t, len) => refExec prog s len t

/-- Run the reference interpreter for at most `fuel` steps. -/
def refRun (prog : List Nat) : Nat → RState → Option RState
  | 0, s => if s.halted then some s else none
  | fuel+1, s =>
    if s.halted then some s
    else
      match refStep prog s with
      | some s' => refRun prog fuel s'
      | none => none

/-- The entry state of the reference interpreter. -/
def initR (inp : List Int) : RState :=
  { ip := 0, stack := [], inp := inp, out := [], halted := false }

/-- Evaluate a program on an input stream under the reference semantics,
observing the sequence of printed values. -/
def refOutput (prog : List Nat) (inp : List Int) (fuel : Nat) : Option (List Int) :=
  (refRun prog fuel (initR inp)).map RState.out

/-- The dynamic side conditions under which a reference step has the same
observable effect as the corresponding native templates: an ADD whose exact
result stays in the signed 32-bit range, and an INPUT whose value is
nonnegative (the template zero-extends the 32-bit load). -/
def stepOk (s : RState) (t : Template) : Bool :=
  match t with
  | .tAdd =>
    match s.stack with
    | b :: a :: _ => decide (-(M31 : Int) ≤ a + b ∧ a + b < (M31 : Int))
    | _ => true
  | .tInput =>
    match s.inp with
    | v :: _ => decide (0 ≤ v ∧ v < (M31 : Int))
    | _ => true
  | _ => true

/-- The reference interpreter instrumented with the side conditions of
`stepOk`: it agrees with `refStep` whenever it succeeds. -/
def safeRefStep (prog : List Nat) (s : RState) : Option RState :=
  if s.halted then none
  else
    match decodeInstr prog s.ip with
    | none => none
    | some (t, len) => if stepOk s t then refExec prog s len t else none

/-- Run the instrumented reference interpreter. -/
def safeRefRun (prog : List Nat) : Nat → RState → Option RState
  | 0, s => if s.halted then some s else none
  | fuel+1, s =>
    if s.halted then some s
    else
      match safeRefStep prog s with
      | some s' => safeRefRun prog fuel s'
      | none => none

/-- Printed values of the instrumented reference run. -/
def safeRefOutput (prog : List Nat) (inp : List Int) (fuel : Nat) : Option (List Int) :=
  (safeRefRun prog fuel (initR inp)).map RState.out


/-! ## The raw scanning loop -/

/-- Outcome of the raw compile loop of demo.c lines 724-1065, viewed as a
walk over byte offsets: `done` carries the instruction boundaries visited
and the byte offsets read by the `OPERAND()` helper; `badOp` records that at
offset `p` the opcode matched no `case` of the `switch`, so `instrptr` was
not advanced and the `while` loop repeats the same iteration forever;
`outOfFuel` means the iteration budget ran out first. -/
inductive ScanOut where
  | done (boundaries : List Nat) (reads : List Nat)
  | badOp (p : Nat)
  | outOfFuel (p : Nat)
deriving DecidableEq, Repr

/-- The four opcodes followed by a 4-byte operand: CONSTANT, GET, SET,
JGT. -/
def isOp5 (b : Nat) : Bool := b = 0 || b = 5 || b = 6 || b = 8

/-- The compile loop as a walk: at each boundary read the opcode byte; a
defined opcode advances by its length (recording the operand bytes read,
whether or not they are in bounds); an undefined opcode leaves the offset
unchanged, which the walk reports as `badOp`. -/
def scanPos (prog : List Nat) : Nat → Nat → ScanOut
  | 0, p => if prog.length ≤ p then .done [] [] else .outOfFuel p
  | fuel+1, p =>
    if prog.length ≤ p then .done [] []
    else if prog.getD p 0 % 256 ≤ 9 then
      if isOp5 (prog.getD p 0 % 256) then
        match scanPos prog fuel (p + 5) with
        | .done bs rs => .done (p :: bs) ([p+1, p+2, p+3, p+4] ++ rs)
        | o => o
      else
        match scanPos prog fuel (p + 1) with
        | .done bs rs => .done (p :: bs) rs
        | o => o
    else .badOp p

/-! ## The executable-memory lifecycle -/

/-- A page-protection state: readable, writable, executable. -/
structure Prot where
  r : Bool
  w : Bool
  x : Bool
deriving DecidableEq, Repr

/-- The memory-affecting actions of `our_dasm_link_and_encode` (demo.c
lines 356-379) and of the call into the finished code. -/
inductive MemStep where
  | mmapAlloc (p : Prot)
  | encodeWrite
  | mprotectTo (p : Prot)
  | callIntoCode
deriving DecidableEq, Repr

/-- The lifecycle executed by `our_dasm_link_and_encode` followed by the
call in `main`: mmap the region read-write, encode into it, mprotect it to
read-execute, call it.  Nothing writes to the region after the protection
change. -/
def linkEncodeLifecycle : List MemStep :=
  [.mmapAlloc ⟨true, true, false⟩, .encodeWrite,
   .mprotectTo ⟨true, false, true⟩, .callIntoCode]

/-- Protection of the code region after an initial segment of the lifecycle;
`none` before the region exists. -/
def protAfter (evs : List MemStep) : Option Prot :=
  evs.foldl
    (fun pr e =>
      match e with
      | .mmapAlloc p => some p
      | .mprotectTo p => some p
      | _ => pr)
    none

/-- A protection state that is not simultaneously writable and
executable. -/
def wxFree : Option Prot → Bool
  | none => true
  | some p => !(p.w && p.x)

/-- Every point of the lifecycle satisfies write-xor-execute. -/
def lifecycleWxFree : Bool :=
  (List.range (linkEncodeLifecycle.length + 1)).all fun k =>
    wxFree (protAfter (linkEncodeLifecycle.take k))

/-- Every encode write happens while the region is read-write and not
executable. -/
def writesUnderRW : Bool :=
  (List.range linkEncodeLifecycle.length).all fun i =>
    match linkEncodeLifecycle.get? i with
    | some .encodeWrite =>
      protAfter (linkEncodeLifecycle.take (i + 1)) == some ⟨true, true, false⟩
    | _ => true

/-- Every execution of the region happens while it is read-execute and not
writable. -/
def execUnderRX : Bool :=
  (List.range linkEncodeLifecycle.length).all fun i =>
    match linkEncodeLifecycle.get? i with
    | some .callIntoCode =>
      protAfter (linkEncodeLifecycle.take (i + 1)) == some ⟨true, false, true⟩
    | _ => true

/-- No write to the region occurs after the protection is flipped to
read-execute: the encoded bytes are never mutated again. -/
def noWriteAfterProtect : Bool :=
  (List.range linkEncodeLifecycle.length).all fun i =>
    (List.range linkEncodeLifecycle.length).all fun j =>
      match linkEncodeLifecycle.get? i, linkEncodeLifecycle.get? j with
      | some (.mprotectTo p), some .encodeWrite => !p.x || decide (j < i)
      | _, _ => true

/-! ## Concrete programs -/

/-- The multiply-by-repeated-addition program literal from `main`
(demo.c lines 1091-1114). -/
def canonProgram : List Nat :=
  [3, 3,
   0, 0, 0, 0, 0,
   5, 0, 0, 0, 0,
   5, 3, 0, 0, 0,
   1,
   6, 0, 0, 0, 0,
   5, 1, 0, 0, 0,
   0, 255, 255, 255, 255,
   1,
   6, 1, 0, 0, 0,
   5, 1, 0, 0, 0,
   0, 0, 0, 0, 0,
   7,
   8, 213, 255, 255, 255,
   5, 0, 0, 0, 0,
   2,
   9]

/-- The code `compile` emits for `canonProgram`: one label per instruction
boundary, the loop body at positions 3-14, the JGT resolved to the label
at byte offset 7. -/
def canonCode : List (Nat × Template) :=
  [(0, .tInput), (1, .tInput), (2, .tConst 0), (7, .tGet 0), (12, .tGet 3),
   (17, .tAdd), (18, .tSet 0), (23, .tGet 1), (28, .tConst (-1)), (33, .tAdd),
   (34, .tSet 1), (39, .tGet 1), (44, .tConst 0), (49, .tCmp), (50, .tJgt 7),
   (55, .tGet 0), (60, .tPrint), (61, .tHalt)]

/-- A program whose first JGT jumps forward over a printing block and
whose second JGT jumps backward into it: it prints 7 exactly when both
directions of label resolution transfer control to the right offset. -/
def fwdBwdProg : List Nat :=
  [0, 1, 0, 0, 0,
   8, 14, 0, 0, 0,
   0, 7, 0, 0, 0,
   2,
   9,
   4,
   4,
   0, 1, 0, 0, 0,
   8, 242, 255, 255, 255]

/-- INPUT, PRINT, HALT: the smallest program whose observable output
separates the generated code from the reference semantics. -/
def inputPrintProg : List Nat := [3, 2, 9]

/-! ## The simulation relation -/

/-- A reference value and the machine word holding it: the value is a
signed 32-bit integer and the word is its sign extension. -/
def wordMatch (v : Int) (w : Nat) : Prop :=
  -(M31 : Int) ≤ v ∧ v < (M31 : Int) ∧ w = sextW v

instance (v : Int) (w : Nat) : Decidable (wordMatch v w) :=
  inferInstanceAs (Decidable (_ ∧ _ ∧ _))

/-- The emitted code is a faithful decoding of the program from byte
offset `p` on: each entry's label is its instruction's byte offset and
consecutive entries are consecutive instructions. -/
inductive WfCode (prog : List Nat) : Nat → List (Nat × Template) → Prop where
  | nil (p : Nat) (h : p = prog.length) : WfCode prog p []
  | cons (p : Nat) (t : Template) (len : Nat) (rest : List (Nat × Template))
      (hd : decodeInstr prog p = some (t, len))
      (hr : WfCode prog (p + len) rest) : WfCode prog p ((p, t) :: rest)

/-- Relation between a reference state and a native state: same position
(the native pc sits at the template whose label is the reference ip, or
both machines have run off the end), stacks matched word for word, same
remaining input, same output, same halt flag. -/
structure SimRel (prog : List Nat) (code : List (Nat × Template))
    (r : RState) (j : NState) : Prop where
  pcOk : (∃ t, code.get? j.pc = some (r.ip, t)) ∨
    (j.pc = code.length ∧ r.ip = prog.length)
  stackOk : List.Forall₂ wordMatch r.stack j.stack
  inpOk : j.inp = r.inp
  outOk : j.out = r.out
  haltOk : j.halted = r.halted

/-! ## Emission events -/

/-- The observable actions `compile` performs against the code-emission
engine, in order: the single label preallocation (`dasm_growpc` with the
program length, before the loop), and per instruction the definition of
the label for its byte offset followed by the emission of its template; a
JGT emission references the label of its resolved target. -/
inductive EmitEvent where
  | growpc (n : Nat)
  | defineLabel (l : Nat)
  | useLabel (L : Int)
  | emitTemplate (t : Template)
deriving DecidableEq, Repr

/-- The events of compiling one instruction: define the label for its
byte offset, then emit its template (a JGT also references its target
label). -/
def instrEvents (e : Nat × Template) : List EmitEvent :=
  match e.2 with
  | .tJgt L => [.defineLabel e.1, .useLabel L, .emitTemplate (.tJgt L)]
  | t => [.defineLabel e.1, .emitTemplate t]

/-- The full event stream of a compilation: `dasm_growpc` over the whole
program length first, then the per-instruction events in scan order. -/
def compileEvents (prog : List Nat) : Option (List EmitEvent) :=
  (compile prog).map fun code =>
    EmitEvent.growpc prog.length :: code.flatMap instrEvents

/-! ## Run and arithmetic helper lemmas -/

theorem nRun_succ (code : List (Nat × Template)) (n : Nat) (s s' : NState)
    (hh : s.halted = false) (hs : nStep code s = some s') :
    nRun code (n + 1) s = nRun code n s' := by
  simp [nRun, hh, hs]

theorem canon_iter (n : Nat) (a b r : Nat) (inp out : List Int) :
    nRun canonCode (n + 12) ⟨3, [r, b, a], inp, out, false⟩ =
    nRun canonCode n
      ⟨if 0 < toS64 (cmpWord ((b + (M64 - 1)) % M64) 0) then 3 else 15,
       [(r + a) % M64, (b + (M64 - 1)) % M64, a], inp, out, false⟩ := by
  rw [show n + 12 = (n + 11) + 1 from rfl,
      nRun_succ canonCode (n+11) ⟨3, [r, b, a], inp, out, false⟩
        ⟨4, [r, r, b, a], inp, out, false⟩ rfl rfl]
  rw [show n + 11 = (n + 10) + 1 from rfl,
      nRun_succ canonCode (n+10) ⟨4, [r, r, b, a], inp, out, false⟩
        ⟨5, [a, r, r, b, a], inp, out, false⟩ rfl rfl]
  rw [show n + 10 = (n + 9) + 1 from rfl,
      nRun_succ canonCode (n+9) ⟨5, [a, r, r, b, a], inp, out, false⟩
        ⟨6, [(r + a) % M64, r, b, a], inp, out, false⟩ rfl rfl]
  rw [show n + 9 = (n + 8) + 1 from rfl,
      nRun_succ canonCode (n+8) ⟨6, [(r + a) % M64, r, b, a], inp, out, false⟩
        ⟨7, [(r + a) % M64, b, a], inp, out, false⟩ rfl rfl]
  rw [show n + 8 = (n + 7) + 1 from rfl,
      nRun_succ canonCode (n+7) ⟨7, [(r + a) % M64, b, a], inp, out, false⟩
        ⟨8, [b, (r + a) % M64, b, a], inp, out, false⟩ rfl rfl]
  rw [show n + 7 = (n + 6) + 1 from rfl,
      nRun_succ canonCode (n+6) ⟨8, [b, (r + a) % M64, b, a], inp, out, false⟩
        ⟨9, [sextW (-1), b, (r + a) % M64, b, a], inp, out, false⟩ rfl rfl]
  rw [show n + 6 = (n + 5) + 1 from rfl,
      nRun_succ canonCode (n+5) ⟨9, [sextW (-1), b, (r + a) % M64, b, a], inp, out, false⟩
        ⟨10, [(b + sextW (-1)) % M64, (r + a) % M64, b, a], inp, out, false⟩ rfl rfl]
  rw [show n + 5 = (n + 4) + 1 from rfl,
      nRun_succ canonCode (n+4) ⟨10, [(b + sextW (-1)) % M64, (r + a) % M64, b, a], inp, out, false⟩
        ⟨11, [(r + a) % M64, (b + sextW (-1)) % M64, a], inp, out, false⟩ rfl rfl]
  rw [show n + 4 = (n + 3) + 1 from rfl,
      nRun_succ canonCode (n+3) ⟨11, [(r + a) % M64, (b + sextW (-1)) % M64, a], inp, out, false⟩
        ⟨12, [(b + sextW (-1)) % M64, (r + a) % M64, (b + sextW (-1)) % M64, a], inp, out, false⟩ rfl rfl]
  rw [show n + 3 = (n + 2) + 1 from rfl,
      nRun_succ canonCode (n+2) ⟨12, [(b + sextW (-1)) % M64, (r + a) % M64, (b + sextW (-1)) % M64, a], inp, out, false⟩
        ⟨13, [sextW 0, (b + sextW (-1)) % M64, (r + a) % M64, (b + sextW (-1)) % M64, a], inp, out, false⟩ rfl rfl]
  rw [show n + 2 = (n + 1) + 1 from rfl,
      nRun_succ canonCode (n+1) ⟨13, [sextW 0, (b + sextW (-1)) % M64, (r + a) % M64, (b + sextW (-1)) % M64, a], inp, out, false⟩
        ⟨14, [cmpWord ((b + sextW (-1)) % M64) (sextW 0), (r + a) % M64, (b + sextW (-1)) % M64, a], inp, out, false⟩ rfl rfl]
  rw [nRun_succ canonCode n ⟨14, [cmpWord ((b + sextW (-1)) % M64) (sextW 0), (r + a) % M64, (b + sextW (-1)) % M64, a], inp, out, false⟩
        ⟨if 0 < toS64 (cmpWord ((b + sextW (-1)) % M64) (sextW 0)) then 3 else 15, [(r + a) % M64, (b + sextW (-1)) % M64, a], inp, out, false⟩ rfl rfl]
  rw [show sextW (-1) = M64 - 1 from by decide, show sextW 0 = 0 from by decide]

theorem toS64_of_lt (w : Nat) (h : w < M63) : toS64 w = (w : Int) := by
  have hm : w % M64 = w := Nat.mod_eq_of_lt (by simp only [M63, M64] at h ⊢; omega)
  simp only [toS64, hm, if_pos h]

theorem canon_loop (m : Nat) : ∀ (a r : Nat) (inp out : List Int), m + 1 < M63 →
    nRun canonCode (12 * (m + 1) + 3) ⟨3, [r, m + 1, a], inp, out, false⟩ =
    some ⟨18, [(r + a * (m + 1)) % M64, 0, a], inp,
          out ++ [toS64 ((r + a * (m + 1)) % M64)], true⟩ := by
  induction m with
  | zero =>
    intro a r inp out h
    rw [show 12 * (0 + 1) + 3 = 3 + 12 from rfl, canon_iter 3 a (0 + 1) r inp out]
    rw [show ((0 + 1 + (M64 - 1)) % M64) = 0 from by decide]
    rw [show (if 0 < toS64 (cmpWord 0 0) then 3 else 15) = 15 from by decide]
    rw [show (3 : Nat) = 2 + 1 from rfl,
        nRun_succ canonCode 2 ⟨15, [(r + a) % M64, 0, a], inp, out, false⟩
          ⟨16, [(r + a) % M64, (r + a) % M64, 0, a], inp, out, false⟩ rfl rfl]
    rw [show (2 : Nat) = 1 + 1 from rfl,
        nRun_succ canonCode 1 ⟨16, [(r + a) % M64, (r + a) % M64, 0, a], inp, out, false⟩
          ⟨17, [(r + a) % M64, 0, a], inp, out ++ [toS64 ((r + a) % M64)], false⟩ rfl rfl]
    rw [show (1 : Nat) = 0 + 1 from rfl,
        nRun_succ canonCode 0 ⟨17, [(r + a) % M64, 0, a], inp, out ++ [toS64 ((r + a) % M64)], false⟩
          ⟨18, [(r + a) % M64, 0, a], inp, out ++ [toS64 ((r + a) % M64)], true⟩ rfl rfl]
    simp [nRun, Nat.mul_one]
  | succ k ih =>
    intro a r inp out h
    have hklt : k + 1 + 1 < M63 := h
    have hb : (k + 1 + 1 + (M64 - 1)) % M64 = k + 1 := by
      have h1 : k + 1 + 1 + (M64 - 1) = (k + 1) + M64 := by
        unfold M64; omega
      have h2 : k + 1 < M64 := by
        simp only [M63, M64] at hklt ⊢; omega
      rw [h1, Nat.add_mod_right, Nat.mod_eq_of_lt h2]
    have hcmp : cmpWord (k + 1) 0 = 1 := by
      have hk63 : k + 1 < M63 := by simp only [M63] at hklt ⊢; omega
      have hpos : (0 : Int) < ((k + 1 : Nat) : Int) := by exact_mod_cast Nat.succ_pos k
      simp only [cmpWord, toS64_of_lt (k + 1) hk63,
        show toS64 0 = 0 from by decide, if_pos hpos]
    rw [show 12 * (k + 1 + 1) + 3 = (12 * (k + 1) + 3) + 12 from by ring,
        canon_iter (12 * (k + 1) + 3) a (k + 1 + 1) r inp out, hb, hcmp]
    rw [show (if 0 < toS64 1 then 3 else 15) = 3 from by decide]
    rw [ih a ((r + a) % M64) inp out (by simp only [M63] at h ⊢; omega)]
    have harg : r + a + a * (k + 1) = r + a * (k + 1 + 1) := by ring
    rw [Nat.mod_add_mod, harg]

theorem canon_entry (t : Nat) :
    nRun canonCode (t + 3) (initN [6, -3]) =
    nRun canonCode t ⟨3, [0, 4294967293, 6], [], [], false⟩ := by
  rw [show t + 3 = (t + 2) + 1 from rfl,
      nRun_succ canonCode (t + 2) (initN [6, -3])
        ⟨1, [zextW 6], [-3], [], false⟩ rfl rfl]
  rw [show t + 2 = (t + 1) + 1 from rfl,
      nRun_succ canonCode (t + 1) ⟨1, [zextW 6], [-3], [], false⟩
        ⟨2, [zextW (-3), zextW 6], [], [], false⟩ rfl rfl]
  rw [nRun_succ canonCode t ⟨2, [zextW (-3), zextW 6], [], [], false⟩
        ⟨3, [sextW 0, zextW (-3), zextW 6], [], [], false⟩ rfl rfl]
  rw [show zextW 6 = 6 from by decide, show zextW (-3) = 4294967293 from by decide,
      show sextW 0 = 0 from by decide]


set_option maxRecDepth 8000 in
theorem canon_neg_run :
    nRun canonCode 51539607522 (initN [6, -3]) =
    some ⟨18, [25769803758, 0, 6], [], [25769803758], true⟩ := by
  have h1 : nRun canonCode 51539607522 (initN [6, -3]) =
      nRun canonCode (12 * (4294967292 + 1) + 3) ⟨3, [0, 4294967293, 6], [], [], false⟩ := by
    rw [show (51539607522 : Nat) = (12 * (4294967292 + 1) + 3) + 3 from by norm_num]
    exact canon_entry (12 * (4294967292 + 1) + 3)
  have h2 := canon_loop 4294967292 6 0 [] [] (by decide)
  rw [h1]
  rw [show (4294967293 : Nat) = 4294967292 + 1 from by norm_num] at *
  rw [h2]
  rw [show ((0 + 6 * (4294967292 + 1)) % M64) = 25769803758 from by decide]
  rw [show toS64 25769803758 = 25769803758 from by decide]
  rfl


/-! ## Small list lemmas -/

theorem get?_some_lt {α : Type} : ∀ (l : List α) (n : Nat) (a : α),
    l.get? n = some a → n < l.length := by
  intro l
  induction l with
  | nil => intro n a h; simp [List.get?] at h
  | cons x xs ih =>
    intro n a h
    cases n with
    | zero => simp
    | succ m => simpa using Nat.succ_lt_succ (ih m a h)

theorem forall2_get? {α β : Type} {R : α → β → Prop} :
    ∀ (l₁ : List α) (l₂ : List β), List.Forall₂ R l₁ l₂ →
    ∀ (n : Nat) (a : α), l₁.get? n = some a → ∃ b, l₂.get? n = some b ∧ R a b := by
  intro l₁
  induction l₁ with
  | nil => intro l₂ h n a ha; simp [List.get?] at ha
  | cons x xs ih =>
    intro l₂ h n a ha
    obtain ⟨y, l₂', hxy, htail, rfl⟩ := List.forall₂_cons_left_iff.mp h
    cases n with
    | zero =>
      simp only [List.get?] at ha ⊢
      exact ⟨y, rfl, by cases ha; exact hxy⟩
    | succ m => exact ih l₂' htail m a ha

theorem forall2_set {α β : Type} {R : α → β → Prop} :
    ∀ (l₁ : List α) (l₂ : List β), List.Forall₂ R l₁ l₂ →
    ∀ (n : Nat) (a : α) (b : β), R a b →
    List.Forall₂ R (l₁.set n a) (l₂.set n b) := by
  intro l₁
  induction l₁ with
  | nil => intro l₂ h n a b hab; cases h; simp [List.Forall₂.nil]
  | cons x xs ih =>
    intro l₂ h n a b hab
    obtain ⟨y, l₂', hxy, htail, rfl⟩ := List.forall₂_cons_left_iff.mp h
    cases n with
    | zero => simpa using List.Forall₂.cons hab htail
    | succ m => simpa using List.Forall₂.cons hxy (ih l₂' htail m a b hab)

/-! ## Arithmetic lemmas about words and values -/

theorem toI32_range (u : Nat) : -(M31 : Int) ≤ toI32 u ∧ toI32 u < (M31 : Int) := by
  unfold toI32 M32 M31
  have h := Nat.mod_lt u (show 0 < 4294967296 by norm_num)
  split_ifs with hs <;> constructor <;> omega

theorem toS64_sextW (v : Int) (h1 : -(M31 : Int) ≤ v) (h2 : v < (M31 : Int)) :
    toS64 (sextW v) = v := by
  unfold toS64 sextW M64 M63 M31 at *
  omega

theorem wrap32_self (v : Int) (h1 : -(M31 : Int) ≤ v) (h2 : v < (M31 : Int)) :
    wrap32 v = v := by
  unfold wrap32 M32 M31 at *
  omega

theorem sextW_add (a b : Int) (ha1 : -(M31 : Int) ≤ a) (ha2 : a < (M31 : Int))
    (hb1 : -(M31 : Int) ≤ b) (hb2 : b < (M31 : Int))
    (hab1 : -(M31 : Int) ≤ a + b) (hab2 : a + b < (M31 : Int)) :
    (sextW a + sextW b) % M64 = sextW (a + b) := by
  unfold sextW M64 M31 at *
  omega

theorem zextW_eq_sextW (v : Int) (h1 : 0 ≤ v) (h2 : v < (M31 : Int)) :
    zextW v = sextW v := by
  unfold zextW sextW M64 M32 M31 at *
  omega


theorem wordMatch_sextW (v : Int) (h1 : -(M31 : Int) ≤ v) (h2 : v < (M31 : Int)) :
    wordMatch v (sextW v) := ⟨h1, h2, rfl⟩

theorem wordMatch_toS64 {v : Int} {w : Nat} (h : wordMatch v w) : toS64 w = v := by
  obtain ⟨h1, h2, rfl⟩ := h
  exact toS64_sextW v h1 h2

/-! ## Bounds of byte and operand reads -/

theorem byteAt_lt {prog : List Nat} {p b : Nat} (h : byteAt prog p = some b) :
    p < prog.length := by
  unfold byteAt at h
  cases hg : prog.get? p with
  | none => rw [hg] at h; simp at h
  | some x => exact get?_some_lt prog p x hg

theorem rawOperand_lt {prog : List Nat} {p u : Nat} (h : rawOperand prog p = some u) :
    p + 5 ≤ prog.length := by
  unfold rawOperand at h
  cases h1 : byteAt prog (p+1) <;> rw [h1] at h
  · simp at h
  cases h2 : byteAt prog (p+2) <;> rw [h2] at h
  · simp at h
  cases h3 : byteAt prog (p+3) <;> rw [h3] at h
  · simp at h
  cases h4 : byteAt prog (p+4) <;> rw [h4] at h
  · simp at h
  have := byteAt_lt h4
  omega

theorem operandAt_lt {prog : List Nat} {p : Nat} {c : Int}
    (h : operandAt prog p = some c) : p + 5 ≤ prog.length := by
  unfold operandAt at h
  cases hu : rawOperand prog p with
  | none => rw [hu] at h; simp at h
  | some u => exact rawOperand_lt hu

theorem operandAt_range {prog : List Nat} {p : Nat} {c : Int}
    (h : operandAt prog p = some c) : -(M31 : Int) ≤ c ∧ c < (M31 : Int) := by
  unfold operandAt at h
  cases hu : rawOperand prog p with
  | none => rw [hu] at h; simp at h
  | some u =>
    rw [hu] at h
    simp only [Option.map_some'] at h
    cases h
    exact toI32_range u

theorem decode_bounds {prog : List Nat} {p : Nat} {t : Template} {len : Nat}
    (h : decodeInstr prog p = some (t, len)) :
    p + len ≤ prog.length ∧ (len = 1 ∨ len = 5) := by
  unfold decodeInstr at h
  split at h
  · simp at h
  case _ hb =>
    cases hc : operandAt prog p <;> rw [hc] at h
    · simp at h
    · simp only [Option.map_some'] at h
      cases h
      exact ⟨operandAt_lt hc, Or.inr rfl⟩
  case _ hb => cases h; exact ⟨by have := byteAt_lt hb; omega, Or.inl rfl⟩
  case _ hb => cases h; exact ⟨by have := byteAt_lt hb; omega, Or.inl rfl⟩
  case _ hb => cases h; exact ⟨by have := byteAt_lt hb; omega, Or.inl rfl⟩
  case _ hb => cases h; exact ⟨by have := byteAt_lt hb; omega, Or.inl rfl⟩
  case _ hb =>
    cases hc : operandAt prog p <;> rw [hc] at h
    · simp at h
    · simp only [Option.map_some'] at h
      cases h
      exact ⟨operandAt_lt hc, Or.inr rfl⟩
  case _ hb =>
    cases hc : operandAt prog p <;> rw [hc] at h
    · simp at h
    · simp only [Option.map_some'] at h
      cases h
      exact ⟨operandAt_lt hc, Or.inr rfl⟩
  case _ hb => cases h; exact ⟨by have := byteAt_lt hb; omega, Or.inl rfl⟩
  case _ hb =>
    cases hc : operandAt prog p <;> rw [hc] at h
    · simp at h
    · simp only [Option.map_some'] at h
      cases h
      exact ⟨operandAt_lt hc, Or.inr rfl⟩
  case _ hb => cases h; exact ⟨by have := byteAt_lt hb; omega, Or.inl rfl⟩
  case _ => simp at h

/-! ## Link lookup -/

theorem linkLookup_some : ∀ (code : List (Nat × Template)) (L : Int),
    (∃ l ∈ codeLabels code, (l : Int) = L) → ∃ j, linkLookup code L = some j := by
  intro code
  induction code with
  | nil => intro L h; simp [codeLabels] at h
  | cons e rest ih =>
    intro L h
    unfold linkLookup
    by_cases he : (e.1 : Int) = L
    · exact ⟨0, by simp [he]⟩
    · simp only [codeLabels, List.map_cons, List.mem_cons] at h
      obtain ⟨l, hl, heq⟩ := h
      rcases hl with rfl | hl
      · exact absurd heq he
      · obtain ⟨j, hj⟩ := ih L ⟨l, hl, heq⟩
        exact ⟨j + 1, by simp [he, hj]⟩

theorem linkLookup_get : ∀ (code : List (Nat × Template)) (L : Int) (j : Nat),
    linkLookup code L = some j →
    ∃ l t, code.get? j = some (l, t) ∧ (l : Int) = L := by
  intro code
  induction code with
  | nil => intro L j h; simp [linkLookup] at h
  | cons e rest ih =>
    intro L j h
    unfold linkLookup at h
    split_ifs at h with he
    · cases h
      exact ⟨e.1, e.2, rfl, he⟩
    · cases hr : linkLookup rest L with
      | none => rw [hr] at h; simp at h
      | some j2 =>
        rw [hr] at h
        simp only [Option.map_some'] at h
        cases h
        obtain ⟨l, t, hget, heq⟩ := ih L j2 hr
        exact ⟨l, t, hget, heq⟩

theorem jgtTargetsOk_mem {code : List (Nat × Template)} (h : jgtTargetsOk code = true)
    {e : Nat × Template} (he : e ∈ code) {L : Int} (ht : e.2 = .tJgt L) :
    ∃ l ∈ codeLabels code, (l : Int) = L := by
  unfold jgtTargetsOk at h
  rw [List.all_eq_true] at h
  have h2 := h e he
  rw [ht] at h2
  rw [List.any_eq_true] at h2
  obtain ⟨l, hl, heq⟩ := h2
  exact ⟨l, hl, by simpa using heq⟩

/-! ## The instrumented interpreter agrees with the plain one -/

theorem safeRefStep_ref {prog : List Nat} {s s' : RState}
    (h : safeRefStep prog s = some s') : refStep prog s = some s' := by
  unfold safeRefStep at h
  unfold refStep
  split_ifs at h ⊢ with hh
  split at h
  · simp at h
  case _ t len hd =>
    split_ifs at h with hok
    exact h

theorem safeRefRun_ref {prog : List Nat} : ∀ (fuel : Nat) (s s' : RState),
    safeRefRun prog fuel s = some s' → refRun prog fuel s = some s' := by
  intro fuel
  induction fuel with
  | zero => intro s s' h; exact h
  | succ n ih =>
    intro s s' h
    unfold safeRefRun at h
    unfold refRun
    split_ifs at h ⊢ with hh
    · exact h
    · cases hs : safeRefStep prog s with
      | none => rw [hs] at h; simp at h
      | some s1 =>
        rw [hs] at h
        rw [safeRefStep_ref hs]
        exact ih s1 s' h


/-! ## The scan produces well-formed code -/

theorem scanFrom_wf (prog : List Nat) : ∀ (fuel p : Nat) (code : List (Nat × Template)),
    scanFrom prog fuel p = some code → p ≤ prog.length → WfCode prog p code := by
  intro fuel
  induction fuel with
  | zero =>
    intro p code h hp
    unfold scanFrom at h
    split_ifs at h with hle
    cases h
    exact WfCode.nil p (by omega)
  | succ n ih =>
    intro p code h hp
    unfold scanFrom at h
    split_ifs at h with hle
    · cases h
      exact WfCode.nil p (by omega)
    · split at h
      case _ t len hd =>
        cases hr : scanFrom prog n (p + len) with
        | none => rw [hr] at h; simp at h
        | some code2 =>
          rw [hr] at h
          simp only [Option.map_some'] at h
          cases h
          have hb := decode_bounds hd
          exact WfCode.cons p t len code2 hd (ih (p + len) code2 hr (by omega))
      case _ hd => simp at h

theorem compile_wf {prog : List Nat} {code : List (Nat × Template)}
    (h : compile prog = some code) :
    WfCode prog 0 code ∧ jgtTargetsOk code = true := by
  unfold compile at h
  split at h
  · rename_i code2 hs
    split_ifs at h with hok
    cases h
    exact ⟨scanFrom_wf prog prog.length 0 _ hs (Nat.zero_le _), hok⟩
  · simp at h

theorem wfCode_head {prog : List Nat} {q : Nat} {code : List (Nat × Template)}
    (h : WfCode prog q code) :
    code = [] ∧ q = prog.length ∨ ∃ t rest, code = (q, t) :: rest := by
  cases h with
  | nil _ hq => exact Or.inl ⟨rfl, hq⟩
  | cons _ t len rest hd hr => exact Or.inr ⟨t, rest, rfl⟩

theorem wfCode_labels_ge {prog : List Nat} : ∀ {q : Nat} {code : List (Nat × Template)},
    WfCode prog q code → ∀ l ∈ codeLabels code, q ≤ l := by
  intro q code h
  induction h with
  | nil => intro l hl; simp [codeLabels] at hl
  | cons p t len rest hd hr ih =>
    intro l hl
    simp only [codeLabels, List.map_cons, List.mem_cons] at hl
    rcases hl with rfl | hl
    · exact Nat.le_refl l
    · have h1 := ih l hl
      have h2 := (decode_bounds hd).2
      omega

theorem wfCode_chain {prog : List Nat} : ∀ {q : Nat} {code : List (Nat × Template)},
    WfCode prog q code → List.Chain' (· < ·) (codeLabels code) := by
  intro q code h
  induction h with
  | nil => exact List.chain'_nil
  | cons p t len rest hd hr ih =>
    simp only [codeLabels, List.map_cons]
    refine List.chain'_cons'.mpr ⟨?_, ?_⟩
    · intro y hy
      have h1 : y ∈ List.map Prod.fst rest := List.mem_of_mem_head? hy
      have h2 := wfCode_labels_ge hr y h1
      have h3 := (decode_bounds hd).2
      omega
    · exact ih

theorem wfCode_labels_lt {prog : List Nat} : ∀ {q : Nat} {code : List (Nat × Template)},
    WfCode prog q code → ∀ l ∈ codeLabels code, l < prog.length := by
  intro q code h
  induction h with
  | nil => intro l hl; simp [codeLabels] at hl
  | cons p t len rest hd hr ih =>
    intro l hl
    simp only [codeLabels, List.map_cons, List.mem_cons] at hl
    rcases hl with rfl | hl
    · have h1 := (decode_bounds hd).1
      have h2 := (decode_bounds hd).2
      omega
    · exact ih l hl

theorem wfCode_get {prog : List Nat} : ∀ {q : Nat} {code : List (Nat × Template)},
    WfCode prog q code → ∀ (i l : Nat) (t : Template), code.get? i = some (l, t) →
    ∃ len, decodeInstr prog l = some (t, len) ∧
      ((∃ t2, code.get? (i + 1) = some (l + len, t2)) ∨
       (code.get? (i + 1) = none ∧ l + len = prog.length)) := by
  intro q code h
  induction h with
  | nil => intro i l t hg; simp [List.get?] at hg
  | cons p t0 len rest hd hr ih =>
    intro i l t hg
    cases i with
    | zero =>
      simp only [List.get?] at hg
      cases hg
      refine ⟨len, hd, ?_⟩
      rcases wfCode_head hr with ⟨rfl, hql⟩ | ⟨t2, rest', rfl⟩
      · exact Or.inr ⟨rfl, hql⟩
      · exact Or.inl ⟨t2, rfl⟩
    | succ m => exact ih m l t hg


/-! ## Per-step simulation -/

theorem nStep_fetch {code : List (Nat × Template)} {s : NState} {l : Nat} {t : Template}
    (hh : s.halted = false) (hpc : code.get? s.pc = some (l, t)) :
    nStep code s = nExec code s t := by
  rw [List.get?_eq_getElem?] at hpc
  simp [nStep, hh, hpc]

theorem decode_none_of_ge {prog : List Nat} {p : Nat} (h : prog.length ≤ p) :
    decodeInstr prog p = none := by
  unfold decodeInstr byteAt
  rw [List.get?_eq_none.mpr h]
  rfl

theorem decode_tConst_range {prog : List Nat} {p : Nat} {c : Int} {len : Nat}
    (h : decodeInstr prog p = some (.tConst c, len)) :
    -(M31 : Int) ≤ c ∧ c < (M31 : Int) := by
  unfold decodeInstr at h
  split at h <;> try simp at h
  case _ hb =>
    cases hc : operandAt prog p with
    | none => rw [hc] at h; simp at h
    | some c2 =>
      rw [hc] at h
      simp only [Option.map_some', Option.some.injEq, Prod.mk.injEq,
        Template.tConst.injEq] at h
      obtain ⟨w, rfl, rfl, -⟩ := h
      exact operandAt_range hc

theorem wordMatch_cmp {a b : Int} {wa wb : Nat}
    (hva : wordMatch a wa) (hvb : wordMatch b wb) :
    wordMatch (cmpVal a b) (cmpWord wa wb) := by
  have hta := wordMatch_toS64 hva
  have htb := wordMatch_toS64 hvb
  unfold cmpVal cmpWord
  rw [hta, htb]
  split_ifs with h1 h2
  · exact ⟨by norm_num [M31], by norm_num [M31], by decide⟩
  · exact ⟨by norm_num [M31], by norm_num [M31], by decide⟩
  · exact ⟨by norm_num [M31], by norm_num [M31], by decide⟩

theorem sim_step {prog : List Nat} {code : List (Nat × Template)}
    (hw : WfCode prog 0 code) (hl : jgtTargetsOk code = true)
    {r r' : RState} {j : NState}
    (hrel : SimRel prog code r j) (hstep : safeRefStep prog r = some r') :
    ∃ j', nStep code j = some j' ∧ SimRel prog code r' j' := by
  obtain ⟨rip, rstk, rinp, rout, rh⟩ := r
  obtain ⟨jpc, jstk, jinp, jout, jh⟩ := j
  obtain ⟨hpcOk, hstackOk, hinpOk, houtOk, hhaltOk⟩ := hrel
  try dsimp only at hpcOk
  try dsimp only at hstackOk
  try dsimp only at hinpOk
  try dsimp only at houtOk
  try dsimp only at hhaltOk
  unfold safeRefStep at hstep
  try dsimp only at hstep
  split_ifs at hstep with hh
  rw [Bool.not_eq_true] at hh
  subst hh
  subst hhaltOk
  subst hinpOk
  subst houtOk
  split at hstep
  · simp at hstep
  case _ t len hd =>
  split_ifs at hstep with hok
  rcases hpcOk with ⟨t0, hpc⟩ | ⟨hpcl, hipl⟩
  swap
  · rw [decode_none_of_ge (le_of_eq hipl.symm)] at hd
    exact Option.noConfusion hd
  obtain ⟨len2, hd2, hnext⟩ := wfCode_get hw jpc rip t0 hpc
  rw [hd] at hd2
  have hun : t0 = t ∧ len2 = len := by
    have h1 := Option.some.inj hd2
    exact ⟨congrArg Prod.fst h1.symm, congrArg Prod.snd h1.symm⟩
  obtain ⟨rfl, rfl⟩ := hun
  have hnext2 : (∃ t2, code.get? (jpc + 1) = some (rip + len2, t2)) ∨
      (jpc + 1 = code.length ∧ rip + len2 = prog.length) := by
    rcases hnext with h | ⟨hnone, hend⟩
    · exact Or.inl h
    · refine Or.inr ⟨?_, hend⟩
      have h1 := get?_some_lt code jpc _ hpc
      have h2 := List.get?_eq_none.mp hnone
      omega
  clear hnext hd2
  cases t0 with
  | tConst c =>
    simp only [refExec] at hstep
    cases hstep
    refine ⟨⟨jpc + 1, sextW c :: jstk, jinp, jout, false⟩, ?_, ?_⟩
    · rw [nStep_fetch rfl hpc]
      simp only [nExec]
    · have hr := decode_tConst_range hd
      exact ⟨hnext2, List.Forall₂.cons ⟨hr.1, hr.2, rfl⟩ hstackOk, rfl, rfl, rfl⟩
  | tAdd =>
    cases rstk with
    | nil => simp [refExec] at hstep
    | cons b rtl =>
      cases rtl with
      | nil => simp [refExec] at hstep
      | cons a rest =>
        simp only [refExec] at hstep
        cases hstep
        simp only [stepOk] at hok
        rw [decide_eq_true_iff] at hok
        obtain ⟨wb, jtl, hvb, htail, rfl⟩ := List.forall₂_cons_left_iff.mp hstackOk
        obtain ⟨wa, jtl2, hva, htail2, rfl⟩ := List.forall₂_cons_left_iff.mp htail
        refine ⟨⟨jpc + 1, ((wa + wb) % M64) :: jtl2, jinp, jout, false⟩, ?_, ?_⟩
        · rw [nStep_fetch rfl hpc]
          simp only [nExec]
        · refine ⟨hnext2, ?_, rfl, rfl, rfl⟩
          refine List.Forall₂.cons ?_ htail2
          obtain ⟨ha1, ha2, rfl⟩ := hva
          obtain ⟨hb1, hb2, rfl⟩ := hvb
          rw [wrap32_self (a + b) hok.1 hok.2,
              sextW_add a b ha1 ha2 hb1 hb2 hok.1 hok.2]
          exact ⟨hok.1, hok.2, rfl⟩
  | tPrint =>
    cases rstk with
    | nil => simp [refExec] at hstep
    | cons a rest =>
      simp only [refExec] at hstep
      cases hstep
      obtain ⟨wa, jtl, hva, htail, rfl⟩ := List.forall₂_cons_left_iff.mp hstackOk
      refine ⟨⟨jpc + 1, jtl, jinp, jout ++ [toS64 wa], false⟩, ?_, ?_⟩
      · rw [nStep_fetch rfl hpc]
        simp only [nExec]
      · refine ⟨hnext2, htail, rfl, ?_, rfl⟩
        rw [wordMatch_toS64 hva]
  | tInput =>
    cases jinp with
    | nil => simp [refExec] at hstep
    | cons v vi =>
      simp only [refExec] at hstep
      cases hstep
      simp only [stepOk] at hok
      rw [decide_eq_true_iff] at hok
      refine ⟨⟨jpc + 1, zextW v :: jstk, vi, jout, false⟩, ?_, ?_⟩
      · rw [nStep_fetch rfl hpc]
        simp only [nExec]
      · refine ⟨hnext2, ?_, rfl, rfl, rfl⟩
        refine List.Forall₂.cons ?_ hstackOk
        rw [wrap32_self v (by have := hok.1; omega) (by have := hok.2; unfold M31 at *; omega),
            zextW_eq_sextW v hok.1 hok.2]
        exact ⟨by have := hok.1; omega, by have := hok.2; unfold M31 at *; omega, rfl⟩
  | tDiscard =>
    cases rstk with
    | nil => simp [refExec] at hstep
    | cons a rest =>
      simp only [refExec] at hstep
      cases hstep
      obtain ⟨wa, jtl, hva, htail, rfl⟩ := List.forall₂_cons_left_iff.mp hstackOk
      refine ⟨⟨jpc + 1, jtl, jinp, jout, false⟩, ?_, ?_⟩
      · rw [nStep_fetch rfl hpc]
        simp only [nExec]
      · exact ⟨hnext2, htail, rfl, rfl, rfl⟩
  | tGet k =>
    simp only [refExec] at hstep
    split_ifs at hstep with hk
    split at hstep
    case _ a hga =>
      cases hstep
      obtain ⟨w, hgw, hvw⟩ := forall2_get? rstk jstk hstackOk k.toNat a hga
      refine ⟨⟨jpc + 1, w :: jstk, jinp, jout, false⟩, ?_, ?_⟩
      · rw [nStep_fetch rfl hpc]
        simp only [nExec]
        rw [if_pos hk, hgw]
      · exact ⟨hnext2, List.Forall₂.cons hvw hstackOk, rfl, rfl, rfl⟩
    case _ => exact Option.noConfusion hstep
  | tSet k =>
    cases rstk with
    | nil => simp [refExec] at hstep
    | cons a rest =>
      simp only [refExec] at hstep
      split_ifs at hstep with hks
      cases hstep
      obtain ⟨wa, jtl, hva, htail, rfl⟩ := List.forall₂_cons_left_iff.mp hstackOk
      have hlen := htail.length_eq
      refine ⟨⟨jpc + 1, jtl.set k.toNat wa, jinp, jout, false⟩, ?_, ?_⟩
      · rw [nStep_fetch rfl hpc]
        simp only [nExec]
        rw [if_pos ⟨hks.1, by have := hks.2; omega⟩]
      · exact ⟨hnext2, forall2_set rest jtl htail k.toNat a wa hva, rfl, rfl, rfl⟩
  | tCmp =>
    cases rstk with
    | nil => simp [refExec] at hstep
    | cons b rtl =>
      cases rtl with
      | nil => simp [refExec] at hstep
      | cons a rest =>
        simp only [refExec] at hstep
        cases hstep
        obtain ⟨wb, jtl, hvb, htail, rfl⟩ := List.forall₂_cons_left_iff.mp hstackOk
        obtain ⟨wa, jtl2, hva, htail2, rfl⟩ := List.forall₂_cons_left_iff.mp htail
        refine ⟨⟨jpc + 1, cmpWord wa wb :: jtl2, jinp, jout, false⟩, ?_, ?_⟩
        · rw [nStep_fetch rfl hpc]
          simp only [nExec]
        · exact ⟨hnext2, List.Forall₂.cons (wordMatch_cmp hva hvb) htail2, rfl, rfl, rfl⟩
  | tJgt L =>
    cases rstk with
    | nil => simp [refExec] at hstep
    | cons a rest =>
      simp only [refExec] at hstep
      obtain ⟨wa, jtl, hva, htail, rfl⟩ := List.forall₂_cons_left_iff.mp hstackOk
      have hmem : (rip, Template.tJgt L) ∈ code := List.get?_mem hpc
      obtain ⟨l0, hl0mem, hl0eq⟩ := jgtTargetsOk_mem hl hmem rfl
      obtain ⟨jx, hjx⟩ := linkLookup_some code L ⟨l0, hl0mem, hl0eq⟩
      obtain ⟨l1, t1, hget1, hl1eq⟩ := linkLookup_get code L jx hjx
      have htsa := wordMatch_toS64 hva
      split_ifs at hstep with hL hpos
      · cases hstep
        refine ⟨⟨jx, jtl, jinp, jout, false⟩, ?_, ?_⟩
        · rw [nStep_fetch rfl hpc]
          simp only [nExec]
          simp [hjx, htsa, hpos]
        · refine ⟨?_, htail, rfl, rfl, rfl⟩
          refine Or.inl ⟨t1, ?_⟩
          have hlt : L.toNat = l1 := by omega
          rw [hlt]
          exact hget1
      · cases hstep
        refine ⟨⟨jpc + 1, jtl, jinp, jout, false⟩, ?_, ?_⟩
        · rw [nStep_fetch rfl hpc]
          simp only [nExec]
          simp [hjx, htsa, hpos]
        · exact ⟨hnext2, htail, rfl, rfl, rfl⟩
  | tHalt =>
    simp only [refExec] at hstep
    cases hstep
    refine ⟨⟨jpc + 1, jstk, jinp, jout, true⟩, ?_, ?_⟩
    · rw [nStep_fetch rfl hpc]
      simp only [nExec]
    · exact ⟨hnext2, hstackOk, rfl, rfl, rfl⟩


/-! ## Whole-run simulation -/

theorem sim_run {prog : List Nat} {code : List (Nat × Template)}
    (hw : WfCode prog 0 code) (hl : jgtTargetsOk code = true) :
    ∀ (fuel : Nat) (r : RState) (j : NState) (r' : RState),
    SimRel prog code r j → safeRefRun prog fuel r = some r' →
    ∃ j', nRun code fuel j = some j' ∧ SimRel prog code r' j' := by
  intro fuel
  induction fuel with
  | zero =>
    intro r j r' hrel h
    unfold safeRefRun at h
    split_ifs at h with hh
    cases h
    exact ⟨j, by simp [nRun, hrel.haltOk, hh], hrel⟩
  | succ n ih =>
    intro r j r' hrel h
    unfold safeRefRun at h
    split_ifs at h with hh
    · cases h
      exact ⟨j, by simp [nRun, hrel.haltOk, hh], hrel⟩
    · cases hs : safeRefStep prog r with
      | none => rw [hs] at h; simp at h
      | some r1 =>
        rw [hs] at h
        obtain ⟨j1, hj1, hrel1⟩ := sim_step hw hl hrel hs
        obtain ⟨j', hj', hrel'⟩ := ih r1 j1 r' hrel1 h
        refine ⟨j', ?_, hrel'⟩
        simp only [nRun, hrel.haltOk, hh, if_neg, hj1]
        simpa using hj'

theorem simRel_init {prog : List Nat} {code : List (Nat × Template)}
    (hw : WfCode prog 0 code) (inp : List Int) :
    SimRel prog code (initR inp) (initN inp) := by
  refine ⟨?_, List.Forall₂.nil, rfl, rfl, rfl⟩
  rcases wfCode_head hw with ⟨rfl, hlen⟩ | ⟨t, rest, rfl⟩
  · exact Or.inr ⟨rfl, hlen⟩
  · exact Or.inl ⟨t, rfl⟩

theorem compiled_matches_ref {prog : List Nat} {code : List (Nat × Template)}
    {inp : List Int} {fuel : Nat} {out : List Int}
    (hc : compile prog = some code)
    (hs : safeRefOutput prog inp fuel = some out) :
    refOutput prog inp fuel = some out ∧ runProg prog inp fuel = some out := by
  obtain ⟨hw, hl⟩ := compile_wf hc
  unfold safeRefOutput at hs
  cases hr : safeRefRun prog fuel (initR inp) with
  | none => rw [hr] at hs; simp at hs
  | some r' =>
    rw [hr] at hs
    simp only [Option.map_some', Option.some.injEq] at hs
    constructor
    · unfold refOutput
      rw [safeRefRun_ref fuel _ r' hr]
      simp [hs]
    · obtain ⟨j', hj', hrel'⟩ := sim_run hw hl fuel _ _ r' (simRel_init hw inp) hr
      unfold runProg
      rw [hc]
      simp only [Option.some_bind, hj', Option.map_some', Option.some.injEq]
      rw [hrel'.outOk, hs]


/-! ## Helper lemmas about list updates and the raw scan -/

theorem get?_set_self {α : Type} : ∀ (l : List α) (n : Nat) (a : α),
    n < l.length → (l.set n a).get? n = some a := by
  intro l
  induction l with
  | nil => intro n a h; simp at h
  | cons x xs ih =>
    intro n a h
    cases n with
    | zero => rfl
    | succ m => exact ih m a (by simpa using h)

theorem get?_set_other {α : Type} : ∀ (l : List α) (n i : Nat) (a : α),
    i ≠ n → (l.set n a).get? i = l.get? i := by
  intro l
  induction l with
  | nil => intro n i a h; rfl
  | cons x xs ih =>
    intro n i a h
    cases n with
    | zero =>
      cases i with
      | zero => exact absurd rfl h
      | succ m => rfl
    | succ m =>
      cases i with
      | zero => rfl
      | succ m2 => exact ih m m2 a (by omega)

theorem scanPos_done_head (prog : List Nat) : ∀ (fuel p : Nat) (bs rs : List Nat),
    scanPos prog fuel p = ScanOut.done bs rs → bs = [] ∨ bs.head? = some p := by
  intro fuel
  cases fuel with
  | zero =>
    intro p bs rs h
    unfold scanPos at h
    split_ifs at h
    cases h
    exact Or.inl rfl
  | succ n =>
    intro p bs rs h
    unfold scanPos at h
    split_ifs at h with h1 h2 h3
    · cases h
      exact Or.inl rfl
    · cases hrec : scanPos prog n (p + 5) <;> rw [hrec] at h
      · cases h
        exact Or.inr rfl
      · exact absurd h (by simp)
      · exact absurd h (by simp)
    · cases hrec : scanPos prog n (p + 1) <;> rw [hrec] at h
      · cases h
        exact Or.inr rfl
      · exact absurd h (by simp)
      · exact absurd h (by simp)

theorem bind_some_aux {α β : Type} (f : α → Option β) (a : α) :
    (some a).bind f = f a := rfl

theorem canon_neg_output :
    runProg canonProgram [6, -3] 51539607522 = some [25769803758] := by
  have hc : compile canonProgram = some canonCode := by decide
  unfold runProg
  rw [hc, bind_some_aux, canon_neg_run]
  rfl


/-! ## The claims -/

/-- C1, counterexample to the claim as stated: for the well-formed program
INPUT, PRINT, HALT and the one-element input stream containing minus one,
the compiled code prints 4294967295 (the zero-extended 32-bit load pushed
by the INPUT template, printed as a signed 64-bit value) while the
reference semantics of the instruction-set table prints minus one.  The
outputs differ, so compiling and running does not reproduce the reference
semantics on every well-formed program and sufficient input. -/
theorem c1_counterexample :
    compile inputPrintProg =
      some [(0, .tInput), (1, .tPrint), (2, .tHalt)] ∧
    refOutput inputPrintProg [-1] 3 = some [-1] ∧
    runProg inputPrintProg [-1] 3 = some [4294967295] ∧
    ((-1 : Int) ≠ (4294967295 : Int)) := by decide

/-- C1, amended: for every program accepted by `compile` and every run of
the reference interpreter in which each value read by INPUT is
nonnegative and each ADD stays within the signed 32-bit range (the
instrumented interpreter `safeRefRun` encodes exactly these side
conditions), the compiled code halts with exactly the same sequence of
PRINT outputs as the reference semantics.  Both machines are functions of
the program and input, so both runs are deterministic. -/
theorem c1_compiled_matches_ref_on_safe_runs (prog : List Nat)
    (code : List (Nat × Template)) (inp : List Int) (fuel : Nat) (out : List Int)
    (hc : compile prog = some code)
    (hs : safeRefOutput prog inp fuel = some out) :
    refOutput prog inp fuel = some out ∧ runProg prog inp fuel = some out :=
  compiled_matches_ref hc hs

/-- C1 witness: the amended claim applied to the INPUT, PRINT, HALT
program on the nonnegative input 5. -/
theorem c1_witness :
    (compile inputPrintProg =
       some [(0, Template.tInput), (1, Template.tPrint), (2, Template.tHalt)] ∧
     safeRefOutput inputPrintProg [5] 3 = some [5]) ∧
    (refOutput inputPrintProg [5] 3 = some [5] ∧
     runProg inputPrintProg [5] 3 = some [5]) :=
  ⟨⟨by decide, by decide⟩,
   c1_compiled_matches_ref_on_safe_runs inputPrintProg
     [(0, Template.tInput), (1, Template.tPrint), (2, Template.tHalt)]
     [5] 3 [5] (by decide) (by decide)⟩

/-- C2, counterexample to the claim as stated: on inputs 6 and minus 3 the
compiled canonical multiply program prints 25769803758, not minus 18: the
second INPUT pushes the zero extension 4294967293 of minus 3, the 64-bit
countdown loop therefore runs 4294967293 times, and the accumulated sum
is 6 times 4294967293.  In particular the output differs from the claimed
minus 18. -/
theorem c2_counterexample :
    runProg canonProgram [6, -3] 51539607522 = some [25769803758] ∧
    some [(25769803758 : Int)] ≠ some [(-18 : Int)] :=
  ⟨canon_neg_output, by decide⟩

/-- C2, amended: compiling and running the canonical
multiply-by-repeated-addition program prints 20 on inputs 4 and 5, prints
0 on inputs 0 and 7, and prints 25769803758 on inputs 6 and minus 3 (the
value the generated code actually computes for a negative counter). -/
theorem c2_canonical_program_outputs :
    runProg canonProgram [4, 5] 66 = some [20] ∧
    runProg canonProgram [0, 7] 90 = some [0] ∧
    runProg canonProgram [6, -3] 51539607522 = some [25769803758] :=
  ⟨by decide, by decide, canon_neg_output⟩

/-- C3, counterexample to the claim as stated: executing the INPUT
template on the input stream holding minus one pushes the machine word
4294967295, whose signed value is 4294967295, not minus one; the pushed
word is not the sign extension of the input value. -/
theorem c3_counterexample :
    nStep [(0, Template.tInput)] ⟨0, [], [-1], [], false⟩ =
      some ⟨1, [4294967295], [], [], false⟩ ∧
    toS64 4294967295 ≠ (-1 : Int) ∧
    (4294967295 : Nat) ≠ sextW (-1) := by decide

/-- C3, amended: executing an INPUT template pushes the next input value
zero-extended from 32 bits onto the runtime stack and advances the input
stream by exactly one element, so successive INPUT instructions consume
the stream strictly in order; the pushed word represents the input's
signed value exactly when that value is nonnegative. -/
theorem c3_input_consumes_in_order (code : List (Nat × Template)) (pc l : Nat)
    (stack : List Nat) (v : Int) (vi out : List Int)
    (hfetch : code.get? pc = some (l, .tInput)) :
    nStep code ⟨pc, stack, v :: vi, out, false⟩ =
      some ⟨pc + 1, zextW v :: stack, vi, out, false⟩ ∧
    (0 ≤ v → v < (M31 : Int) → toS64 (zextW v) = v) := by
  constructor
  · rw [nStep_fetch rfl hfetch]
    simp only [nExec]
  · intro h1 h2
    unfold toS64 zextW M64 M63 M32 M31 at *
    omega

/-- C3 witness: the amended claim applied to a single INPUT template
reading the value 9. -/
theorem c3_witness :
    ([(0, Template.tInput)].get? 0 = some (0, Template.tInput)) ∧
    (nStep [(0, Template.tInput)] ⟨0, [], [9], [], false⟩ =
       some ⟨1, zextW 9 :: [], [], [], false⟩ ∧
     (0 ≤ (9 : Int) → (9 : Int) < (M31 : Int) → toS64 (zextW 9) = 9)) :=
  ⟨by decide, c3_input_consumes_in_order [(0, Template.tInput)] 0 0 [] 9 [] []
    (by decide)⟩

/-- C4: executing a JGT template pops one word; control transfers to the
template at the target label exactly when the popped word's signed value
is positive, and falls through to the next template otherwise; the link
lookup lands on a template carrying the referenced label.  Decoding
resolves the target to the instruction's own byte offset plus its signed
operand.  End to end, the program with one forward and one backward jump
compiles, links and prints 7, which requires both jump directions to
transfer to the correct offsets. -/
theorem c4_jgt_branch_and_link :
    (∀ (code : List (Nat × Template)) (pc l j : Nat) (L : Int) (w : Nat)
       (rest : List Nat) (inp out : List Int),
       code.get? pc = some (l, .tJgt L) →
       linkLookup code L = some j →
       nStep code ⟨pc, w :: rest, inp, out, false⟩ =
         some ⟨if 0 < toS64 w then j else pc + 1, rest, inp, out, false⟩ ∧
       (∃ l2 t2, code.get? j = some (l2, t2) ∧ (l2 : Int) = L)) ∧
    (∀ (prog : List Nat) (p : Nat) (d : Int),
       byteAt prog p = some 8 → operandAt prog p = some d →
       decodeInstr prog p = some (.tJgt ((p : Int) + d), 5)) ∧
    runProg fwdBwdProg [] 9 = some [7] := by
  refine ⟨?_, ?_, by decide⟩
  · intro code pc l j L w rest inp out hfetch hlink
    constructor
    · rw [nStep_fetch rfl hfetch]
      simp only [nExec, hlink]
    · exact linkLookup_get code L j hlink
  · intro prog p d hb ho
    unfold decodeInstr
    rw [hb, ho]
    rfl

/-- C4 witness: the branch characterization applied to a one-template
program whose JGT targets its own label, on a positive stack word. -/
theorem c4_witness :
    ([(0, Template.tJgt 0)].get? 0 = some (0, Template.tJgt 0)) ∧
    (linkLookup [(0, Template.tJgt 0)] 0 = some 0) ∧
    (nStep [(0, Template.tJgt 0)] ⟨0, [5], [], [], false⟩ =
       some ⟨if 0 < toS64 5 then 0 else 0 + 1, [], [], [], false⟩ ∧
     (∃ (l2 : Nat) (t2 : Template),
        [(0, Template.tJgt 0)].get? 0 = some (l2, t2) ∧ (l2 : Int) = 0)) :=
  ⟨by decide, by decide,
   c4_jgt_branch_and_link.1 [(0, Template.tJgt 0)] 0 0 0 0 5 [] [] []
     (by decide) (by decide)⟩

/-- C5: executing a CMP template pops the word holding b, then the word
holding a, and pushes exactly one word whose signed value is 1, 0 or
minus 1, agreeing with ordinary signed comparison of a and b whenever the
two popped words hold signed 32-bit values, including INT32_MIN and
INT32_MAX. -/
theorem c5_cmp_matches_signed_comparison (code : List (Nat × Template))
    (pc l : Nat) (wa wb : Nat) (a b : Int) (rest : List Nat) (inp out : List Int)
    (hfetch : code.get? pc = some (l, .tCmp))
    (ha : wordMatch a wa) (hb : wordMatch b wb) :
    nStep code ⟨pc, wb :: wa :: rest, inp, out, false⟩ =
      some ⟨pc + 1, cmpWord wa wb :: rest, inp, out, false⟩ ∧
    toS64 (cmpWord wa wb) = cmpVal a b ∧
    (cmpVal a b = 1 ∨ cmpVal a b = 0 ∨ cmpVal a b = -1) := by
  refine ⟨?_, ?_, ?_⟩
  · rw [nStep_fetch rfl hfetch]
    simp only [nExec]
  · exact wordMatch_toS64 (wordMatch_cmp ha hb)
  · unfold cmpVal
    split_ifs <;> simp

/-- C5 witness: the CMP characterization applied to INT32_MIN (as the
word 18446744071562067968, its sign extension) compared against
INT32_MAX, yielding minus one. -/
theorem c5_witness :
    ([(0, Template.tCmp)].get? 0 = some (0, Template.tCmp)) ∧
    wordMatch (-2147483648) 18446744071562067968 ∧
    wordMatch 2147483647 2147483647 ∧
    (nStep [(0, Template.tCmp)]
        ⟨0, [2147483647, 18446744071562067968], [], [], false⟩ =
       some ⟨1, cmpWord 18446744071562067968 2147483647 :: [], [], [], false⟩ ∧
     toS64 (cmpWord 18446744071562067968 2147483647) =
       cmpVal (-2147483648) 2147483647 ∧
     (cmpVal (-2147483648) 2147483647 = 1 ∨
      cmpVal (-2147483648) 2147483647 = 0 ∨
      cmpVal (-2147483648) 2147483647 = -1)) :=
  ⟨by decide, by decide, by decide,
   c5_cmp_matches_signed_comparison [(0, Template.tCmp)] 0 0
     18446744071562067968 2147483647 (-2147483648) 2147483647 [] [] []
     (by decide) (by decide) (by decide)⟩

/-- C6, counterexample to the claim as stated: on a stack holding exactly
k plus 1 live values, SET with operand k has no slot at depth k left
after the pop; the generated store writes the word just below the live
stack values, which in the generated frame is the saved base pointer, not
a stack slot.  The model reports the access outside the live values as a
fault, refuting the claim that k plus 1 live values suffice for SET. -/
theorem c6_counterexample :
    ([5] : List Nat).length = 0 + 1 ∧
    nStep [(0, Template.tSet 0)] ⟨0, [5], [], [], false⟩ = none := by decide

/-- C6, amended: on a stack with at least k plus 1 live values, GET with
operand k pushes a copy of the value at depth k below the top, removing
nothing; on a stack with at least k plus 2 live values, SET with operand
k pops the top value and stores it into the slot at depth k measured
after the pop, and every slot other than the one written is unchanged. -/
theorem c6_get_set_frame_effect :
    (∀ (code : List (Nat × Template)) (pc l : Nat) (k : Int) (stack : List Nat)
       (w : Nat) (inp out : List Int),
       code.get? pc = some (l, .tGet k) → 0 ≤ k →
       stack.get? k.toNat = some w →
       nStep code ⟨pc, stack, inp, out, false⟩ =
         some ⟨pc + 1, w :: stack, inp, out, false⟩) ∧
    (∀ (code : List (Nat × Template)) (pc l : Nat) (k : Int) (w : Nat)
       (rest : List Nat) (inp out : List Int),
       code.get? pc = some (l, .tSet k) → 0 ≤ k → k.toNat < rest.length →
       nStep code ⟨pc, w :: rest, inp, out, false⟩ =
         some ⟨pc + 1, rest.set k.toNat w, inp, out, false⟩ ∧
       (rest.set k.toNat w).get? k.toNat = some w ∧
       (∀ i, i ≠ k.toNat → (rest.set k.toNat w).get? i = rest.get? i)) := by
  constructor
  · intro code pc l k stack w inp out hfetch hk hget
    rw [nStep_fetch rfl hfetch]
    simp only [nExec]
    rw [if_pos hk, hget]
  · intro code pc l k w rest inp out hfetch hk hlen
    refine ⟨?_, get?_set_self rest k.toNat w hlen, ?_⟩
    · rw [nStep_fetch rfl hfetch]
      simp only [nExec]
      rw [if_pos ⟨hk, hlen⟩]
    · intro i hi
      exact get?_set_other rest k.toNat i w hi

/-- C6 witness: GET 0 copying the top of a one-value stack and SET 0
rewriting the top of the two-value stack below the popped word. -/
theorem c6_witness :
    (([(0, Template.tGet 0)].get? 0 = some (0, Template.tGet 0)) ∧
     (0 : Int) ≤ 0 ∧ ([7] : List Nat).get? (0 : Int).toNat = some 7 ∧
     nStep [(0, Template.tGet 0)] ⟨0, [7], [], [], false⟩ =
       some ⟨1, 7 :: [7], [], [], false⟩) ∧
    (([(0, Template.tSet 0)].get? 0 = some (0, Template.tSet 0)) ∧
     (0 : Int).toNat < ([4] : List Nat).length ∧
     (nStep [(0, Template.tSet 0)] ⟨0, [9, 4], [], [], false⟩ =
        some ⟨1, ([4] : List Nat).set (0 : Int).toNat 9, [], [], false⟩ ∧
      (([4] : List Nat).set (0 : Int).toNat 9).get? (0 : Int).toNat = some 9 ∧
      (∀ i, i ≠ (0 : Int).toNat →
        (([4] : List Nat).set (0 : Int).toNat 9).get? i =
          ([4] : List Nat).get? i))) :=
  ⟨⟨by decide, by decide, by decide,
    c6_get_set_frame_effect.1 [(0, Template.tGet 0)] 0 0 0 [7] 7 [] []
      (by decide) (by decide) (by decide)⟩,
   ⟨by decide, by decide,
    c6_get_set_frame_effect.2 [(0, Template.tSet 0)] 0 0 0 9 [4] [] []
      (by decide) (by decide) (by decide)⟩⟩


/-- C7: for every program that compiles, the label discipline of the
compiler holds: the event stream opens with the single preallocation of
exactly `prog.length` labels (one per byte offset, `dasm_growpc` before
the loop), each instruction boundary's label is defined exactly once, at
that boundary and before the instruction's template is emitted (the
labels in emission order are strictly increasing, hence no label is
defined twice), every defined label is a byte offset inside the program,
and every label referenced by a jump is a defined label inside the
preallocated range 0 to `prog.length` minus 1. -/
theorem c7_label_discipline (prog : List Nat) (code : List (Nat × Template))
    (hc : compile prog = some code) :
    compileEvents prog =
      some (.growpc prog.length :: code.flatMap instrEvents) ∧
    List.Chain' (· < ·) (codeLabels code) ∧
    (codeLabels code).Nodup ∧
    (∀ l ∈ codeLabels code, l < prog.length) ∧
    (∀ L : Int, EmitEvent.useLabel L ∈ code.flatMap instrEvents →
       ∃ l ∈ codeLabels code, (l : Int) = L ∧ 0 ≤ L ∧
         L < (prog.length : Int)) := by
  obtain ⟨hw, hl⟩ := compile_wf hc
  have hchain := wfCode_chain hw
  refine ⟨by simp [compileEvents, hc], hchain,
    (List.chain'_iff_pairwise.mp hchain).imp Nat.ne_of_lt,
    wfCode_labels_lt hw, ?_⟩
  intro L hLmem
  rw [List.mem_flatMap] at hLmem
  obtain ⟨e, he, hev⟩ := hLmem
  have hjgt : e.2 = Template.tJgt L := by
    unfold instrEvents at hev
    split at hev
    case _ L2 heq =>
      simp only [List.mem_cons, List.mem_singleton] at hev
      rcases hev with h | h | h
      · exact absurd h (by simp)
      · rw [heq]
        cases h
        rfl
      · exact absurd h (by simp)
    case _ heq =>
      simp only [List.mem_cons, List.mem_singleton] at hev
      rcases hev with h | h
      · exact absurd h (by simp)
      · exact absurd h (by simp)
  obtain ⟨l, hlmem, hleq⟩ := jgtTargetsOk_mem hl he hjgt
  have hlt := wfCode_labels_lt hw l hlmem
  exact ⟨l, hlmem, hleq, by omega, by omega⟩

/-- C7 witness: the label discipline instantiated on the canonical
multiply program and its compiled code. -/
theorem c7_witness :
    (compile canonProgram = some canonCode) ∧
    (compileEvents canonProgram =
       some (.growpc canonProgram.length :: canonCode.flatMap instrEvents) ∧
     List.Chain' (· < ·) (codeLabels canonCode) ∧
     (codeLabels canonCode).Nodup ∧
     (∀ l ∈ codeLabels canonCode, l < canonProgram.length) ∧
     (∀ L : Int, EmitEvent.useLabel L ∈ canonCode.flatMap instrEvents →
        ∃ l ∈ codeLabels canonCode, (l : Int) = L ∧ 0 ≤ L ∧
          L < (canonProgram.length : Int))) :=
  ⟨by decide, c7_label_discipline canonProgram canonCode (by decide)⟩

/-- C8: over the modelled lifecycle of `our_dasm_link_and_encode` and the
call into the finished code, the region is never writable and executable
at the same time, every encode write happens while it is read-write and
not executable, every execution happens while it is read-execute and not
writable, and no write occurs after the protection flip, so the encoded
bytes are never mutated again. -/
theorem c8_wx_lifecycle :
    lifecycleWxFree = true ∧ writesUnderRW = true ∧ execUnderRX = true ∧
    noWriteAfterProtect = true := by decide

/-- C9: the compile scan terminates whenever it never meets an undefined
opcode at a scanned boundary: with fuel covering the remaining length the
walk never runs out of fuel, so it either completes or stops flagging an
undefined opcode; the boundaries it visits advance by exactly 1 or 5
bytes each step.  Conversely, on the one-byte program holding the
undefined opcode 10, the loop never advances the instruction pointer: for
every fuel budget the walk is still stuck at offset 0, which is the
fuel-indexed rendering of the C loop never terminating. -/
theorem c9_scan_termination :
    (∀ (prog : List Nat) (fuel p : Nat), prog.length ≤ p + fuel →
       ∀ q, scanPos prog fuel p ≠ ScanOut.outOfFuel q) ∧
    (∀ (prog : List Nat) (fuel p : Nat) (bs rs : List Nat),
       scanPos prog fuel p = ScanOut.done bs rs →
       List.Chain' (fun x y => y = x + 1 ∨ y = x + 5) bs) ∧
    (∀ fuel : Nat, scanPos [10] (fuel + 1) 0 = ScanOut.badOp 0) := by
  refine ⟨?_, ?_, ?_⟩
  · intro prog fuel
    induction fuel with
    | zero =>
      intro p hle q
      unfold scanPos
      rw [if_pos (by omega)]
      simp
    | succ n ih =>
      intro p hle q
      unfold scanPos
      split_ifs with h1 h2 h3
      · simp
      · cases hrec : scanPos prog n (p + 5) with
        | done bs rs => simp [hrec]
        | badOp p2 => simp [hrec]
        | outOfFuel p2 => exact absurd hrec (ih (p + 5) (by omega) p2)
      · cases hrec : scanPos prog n (p + 1) with
        | done bs rs => simp [hrec]
        | badOp p2 => simp [hrec]
        | outOfFuel p2 => exact absurd hrec (ih (p + 1) (by omega) p2)
      · simp
  · intro prog fuel
    induction fuel with
    | zero =>
      intro p bs rs h
      unfold scanPos at h
      split_ifs at h
      cases h
      exact List.chain'_nil
    | succ n ih =>
      intro p bs rs h
      unfold scanPos at h
      split_ifs at h with h1 h2 h3
      · cases h
        exact List.chain'_nil
      · cases hrec : scanPos prog n (p + 5) with
        | done bs2 rs2 =>
          rw [hrec] at h
          injection h with h4 h5
          subst h4
          refine List.chain'_cons'.mpr ⟨?_, ih (p + 5) bs2 rs2 hrec⟩
          intro y hy
          rcases scanPos_done_head prog n (p + 5) bs2 rs2 hrec with rfl | hhd
          · simp at hy
          · rw [hhd] at hy
            cases hy
            exact Or.inr rfl
        | badOp p2 => rw [hrec] at h; exact absurd h (by simp)
        | outOfFuel p2 => rw [hrec] at h; exact absurd h (by simp)
      · cases hrec : scanPos prog n (p + 1) with
        | done bs2 rs2 =>
          rw [hrec] at h
          injection h with h4 h5
          subst h4
          refine List.chain'_cons'.mpr ⟨?_, ih (p + 1) bs2 rs2 hrec⟩
          intro y hy
          rcases scanPos_done_head prog n (p + 1) bs2 rs2 hrec with rfl | hhd
          · simp at hy
          · rw [hhd] at hy
            cases hy
            exact Or.inl rfl
        | badOp p2 => rw [hrec] at h; exact absurd h (by simp)
        | outOfFuel p2 => rw [hrec] at h; exact absurd h (by simp)
  · intro fuel
    rfl

/-- C9 witness: the termination half applied to the one-instruction
program ADD with exactly enough fuel, and the stride property of the
boundaries it visits. -/
theorem c9_witness :
    (([3] : List Nat).length ≤ 0 + 1 ∧
     scanPos [3] 1 0 ≠ ScanOut.outOfFuel 5) ∧
    (scanPos [3] 1 0 = ScanOut.done [0] [] ∧
     List.Chain' (fun x y => y = x + 1 ∨ y = x + 5) [0]) :=
  ⟨⟨by decide, c9_scan_termination.1 [3] 1 0 (by decide) 5⟩,
   ⟨by decide, c9_scan_termination.2.1 [3] 1 0 [0] [] (by decide)⟩⟩

/-- C10: whenever the scan completes and every CONSTANT, GET, SET or JGT
opcode it visited begins at byte offset at most the program length minus
5, every operand byte the OPERAND helper read lies inside the program;
conversely, on the one-byte program holding a bare CONSTANT opcode, the
scan reads the operand bytes at offsets 1 to 4, all of which index past
the end of the program. -/
theorem c10_operand_reads :
    (∀ (prog : List Nat) (fuel p : Nat) (bs rs : List Nat),
       scanPos prog fuel p = ScanOut.done bs rs →
       (∀ q ∈ bs, isOp5 (prog.getD q 0 % 256) = true → q + 5 ≤ prog.length) →
       ∀ r ∈ rs, r < prog.length) ∧
    (scanPos [0] 1 0 = ScanOut.done [0] [1, 2, 3, 4] ∧
     ∀ r ∈ ([1, 2, 3, 4] : List Nat), ([0] : List Nat).length ≤ r) := by
  refine ⟨?_, by decide, by decide⟩
  intro prog fuel
  induction fuel with
  | zero =>
    intro p bs rs h hb
    unfold scanPos at h
    split_ifs at h
    cases h
    simp
  | succ n ih =>
    intro p bs rs h hb
    unfold scanPos at h
    split_ifs at h with h1 h2 h3
    · cases h
      simp
    · cases hrec : scanPos prog n (p + 5) with
      | done bs2 rs2 =>
        rw [hrec] at h
        injection h with h4 h5
        subst h4
        subst h5
        intro r hr
        rw [List.mem_append] at hr
        rcases hr with hr | hr
        · have hq := hb p (List.mem_cons_self p bs2) h3
          simp only [List.mem_cons, List.mem_singleton] at hr
          rcases hr with rfl | rfl | rfl | rfl | hr
          · omega
          · omega
          · omega
          · omega
          · simp at hr
        · exact ih (p + 5) bs2 rs2 hrec
            (fun q hq hq5 => hb q (List.mem_cons_of_mem p hq) hq5) r hr
      | badOp p2 => rw [hrec] at h; exact absurd h (by simp)
      | outOfFuel p2 => rw [hrec] at h; exact absurd h (by simp)
    · cases hrec : scanPos prog n (p + 1) with
      | done bs2 rs2 =>
        rw [hrec] at h
        injection h with h4 h5
        subst h4
        subst h5
        intro r hr
        exact ih (p + 1) bs2 rs2 hrec
          (fun q hq hq5 => hb q (List.mem_cons_of_mem p hq) hq5) r hr
      | badOp p2 => rw [hrec] at h; exact absurd h (by simp)
      | outOfFuel p2 => rw [hrec] at h; exact absurd h (by simp)

/-- C10 witness: the in-bounds half applied to the one-instruction
program ADD, whose scan performs no operand reads. -/
theorem c10_witness :
    scanPos [1] 1 0 = ScanOut.done [0] [] ∧
    (∀ q ∈ ([0] : List Nat),
       isOp5 (([1] : List Nat).getD q 0 % 256) = true →
       q + 5 ≤ ([1] : List Nat).length) ∧
    (∀ r ∈ ([] : List Nat), r < ([1] : List Nat).length) :=
  ⟨by decide, by decide,
   c10_operand_reads.1 [1] 1 0 [0] [] (by decide) (by decide)⟩

end DynasmDemo
